import Mathlib

/-!
Verification of the ITX resolution-and-fetch orchestration server
(`server/server.js`, streaming variant, plus `convert_cookies.js`).

The JavaScript code is shallowly embedded: strings are `List Char`
(JS strings are sequences of UTF-16 code units; all inputs in play are
plain-text), buffers are `List Nat` byte lists, and the asynchronous
request handlers become pure trace-producing functions over an explicit
description of one run (subprocess chunk sequences, external-tool and
inference-service outcomes).
-/

set_option autoImplicit false

namespace ITX

/-! ### JS string primitives

Embeddings of the JavaScript string operations the server uses:
`trim`, `startsWith`, `includes`, `split` (on a literal separator and on
the regex `/\s+/`).  JS whitespace (`\s`, and the characters stripped by
`trim`) is modelled by the ASCII whitespace characters that can occur in
the inputs handled here. -/

/-- Whitespace test mirroring the characters matched by JS `\s` that are
representable in the inputs handled by the server (space, tab, LF, CR,
vertical tab, form feed). -/
def isWsCh (c : Char) : Bool :=
  c = ' ' || c = '\t' || c = '\n' || c = '\r' || c = '\x0b' || c = '\x0c'

/-- JS `p.every-prefix` test: `startsWithL pat s` is `s.startsWith(pat)`. -/
def startsWithL : List Char → List Char → Bool
  | [], _ => true
  | _ :: _, [] => false
  | p :: ps, c :: cs => p = c && startsWithL ps cs

/-- JS `s.includes(pat)`: `pat` occurs contiguously in `s`. -/
def containsSeq (pat : List Char) : List Char → Bool
  | [] => startsWithL pat []
  | c :: cs => startsWithL pat (c :: cs) || containsSeq pat cs

/-- JS `String.prototype.trim` (strip leading and trailing whitespace). -/
def trimL (cs : List Char) : List Char :=
  ((cs.dropWhile isWsCh).reverse.dropWhile isWsCh).reverse

/-- Split a character list at every character satisfying `p`, JS
`s.split(sep)` style: `splitP p s` always has one more element than the
number of separator occurrences, and empty pieces are kept. -/
def splitP (p : Char → Bool) : List Char → List (List Char)
  | [] => [[]]
  | c :: rest =>
    if p c then [] :: splitP p rest
    else
      match splitP p rest with
      | r :: rs => (c :: r) :: rs
      | [] => [[c]]

/-- Join pieces with a separator character (inverse of `splitP`). -/
def joinSep (sep : Char) : List (List Char) → List Char
  | [] => []
  | [f] => f
  | f :: fs => f ++ sep :: joinSep sep fs

/-- Drop the empty pieces that `splitP isWsCh` produces between two
adjacent separator characters, keeping a trailing empty piece.  Used to
build the run-based JS split `s.split(/\s+/)` from the single-character
split. -/
def dropMidEmpties : List (List Char) → List (List Char)
  | [] => []
  | [x] => [x]
  | x :: rest => if x = [] then dropMidEmpties rest else x :: dropMidEmpties rest

/-- JS `s.split(/\s+/)`: split on maximal whitespace runs; a leading or
trailing run contributes an empty first or last piece, interior runs do
not produce empty pieces. -/
def splitWsJS (cs : List Char) : List (List Char) :=
  match splitP isWsCh cs with
  | [] => []
  | f :: rest => f :: dropMidEmpties rest

/-- Decimal rendering of a natural number, as JS renders a nonnegative
integer (`${n}` in a template literal); fuel-driven structural
recursion (fuel `n` always suffices since `n / 10 < n` for `n > 0`). -/
def natToStrGo : Nat → Nat → List Char → List Char
  | _, 0, acc => acc
  | 0, _ + 1, acc => acc
  | fuel + 1, n + 1, acc =>
    natToStrGo fuel ((n + 1) / 10) (Char.ofNat (48 + (n + 1) % 10) :: acc)

/-- Decimal rendering of a natural number (`${n}`), `"0"` for zero. -/
def natToStr (n : Nat) : List Char :=
  if n = 0 then ['0'] else natToStrGo n n []

/-! ### Credential Normalizer — JSON cookie conversion

Embedding of the JSON-to-Netscape cookie mapping of
`convert_cookies.js` (the `netscapeLines` map), textually identical to
the branch-B mapping inside `getCookiesPath` in `server/server.js`.
A parsed cookie record is modelled with the fields the code reads;
`expirationDate` is an optional nonnegative integer: the code stores
`Math.floor(Number(c.expirationDate))`, and for the (nonnegative)
cookie timestamps in scope the floored value is the natural number
carried here. -/

structure JsonCookie where
  domain : List Char
  host : List Char
  name : List Char
  value : List Char
  path : List Char
  secure : Bool
  httpOnly : Bool
  expirationDate : Option Nat
  deriving DecidableEq

/-- JS `c.domain || c.host || ""`. -/
def effDomain (c : JsonCookie) : List Char :=
  if c.domain ≠ [] then c.domain else c.host

/-- The `outDomain` local: prefix a leading dot when the domain is
nonempty, not already dotted, contains a dot, and the cookie is not
http-only. -/
def outDomain (c : JsonCookie) : List Char :=
  if effDomain c ≠ [] && !startsWithL ['.'] (effDomain c) &&
      (effDomain c).contains '.' && !c.httpOnly then
    '.' :: effDomain c
  else effDomain c

/-- JS `c.expirationDate ? Math.floor(Number(c.expirationDate)) : 0`
(`0` is also falsy, so `some 0` and `none` agree). -/
def cookieExpires (c : JsonCookie) : Nat :=
  match c.expirationDate with
  | some e => e
  | none => 0

/-- The seven fields of one emitted Netscape line, in order:
`${prefix}${outDomain}`, flag, path, secure, expires, name, value. -/
def netscapeFields (c : JsonCookie) : List (List Char) :=
  [(if c.httpOnly then "#HttpOnly_".data else []) ++ outDomain c,
   "TRUE".data,
   (if c.path = [] then "/".data else c.path),
   (if c.secure then "TRUE".data else "FALSE".data),
   natToStr (cookieExpires c),
   c.name,
   c.value]

/-- One emitted line: the seven fields joined by tabs, exactly the
template literal in the source. -/
def netscapeLine (c : JsonCookie) : List Char :=
  joinSep '\t' (netscapeFields c)

/-- The canonical header line. -/
def netscapeHeader : List Char := "# Netscape HTTP Cookie File".data

/-- The full converted file content:
`"# Netscape HTTP Cookie File\n" + netscapeLines.join("\n") + "\n"`. -/
def convertCookiesContent (cs : List JsonCookie) : List Char :=
  netscapeHeader ++ '\n' :: joinSep '\n' (cs.map netscapeLine) ++ ['\n']

/-! ### Credential Normalizer — `getCookiesPath` content pipeline

Embedding of the content-producing part of `getCookiesPath` in
`server/server.js`: branch A (already-Netscape passthrough) and
branch C (clean-up of messy pasted text) are embedded in full; an
input detected as JSON (branch B) is reported as `jsonForm` carrying
the trimmed blob — its JSON-parsing front-end (JS `JSON.parse`) is not
re-embedded, and its per-record conversion is `netscapeLine` above. -/

/-- Result of the normalizer on one raw credential blob: the content
written for branches A and C, or the trimmed blob handed to the JSON
conversion for branch B. -/
inductive CookieNorm where
  | passthrough (content : List Char)
  | jsonForm (trimmed : List Char)
  | cleaned (content : List Char)
  deriving DecidableEq

/-- JS `line.replace(/^[│|]?\s*\d+\s+/, "")`: strip an optional box or
pipe character, then whitespace, then a digit run followed by at least
one whitespace character.  The pattern is deterministic: the optional
bar must be consumed when present (otherwise `\s*\d+` cannot match at a
bar), and each greedy run is forced because `\s` and `\d` are disjoint
and `\d` excludes the characters that must follow. -/
def stripLeadArtifact (cs : List Char) : List Char :=
  match cs with
  | [] => []
  | c :: rest =>
    let body := fun (cs2 : List Char) =>
      let r0 := (cs2.span isWsCh).2
      let d := (r0.span Char.isDigit).1
      let r1 := (r0.span Char.isDigit).2
      if d = [] then none
      else
        let w1 := (r1.span isWsCh).1
        let r2 := (r1.span isWsCh).2
        if w1 = [] then none else some r2
    if c = '│' || c = '|' then
      match body rest with
      | some r => r
      | none => cs
    else
      match body cs with
      | some r => r
      | none => cs

/-- JS `l.replace(/[│|]\s*$/, "")`: drop everything from the first box
or pipe character that is followed only by whitespace. -/
def stripTailArtifact : List Char → List Char
  | [] => []
  | c :: rest =>
    if (c = '│' || c = '|') && rest.all isWsCh then []
    else c :: stripTailArtifact rest

/-- Append a continuation line to the last accumulated line
(`cleanedLines[cleanedLines.length - 1] += l`). -/
def appendToLast (acc : List (List Char)) (l : List Char) : List (List Char) :=
  match acc with
  | [] => []
  | [a] => [a ++ l]
  | a :: rest => a :: appendToLast rest l

/-- One iteration of the branch-C `lines.forEach` clean-up loop. -/
def cleanStep (acc : List (List Char)) (line : List Char) : List (List Char) :=
  let l := trimL (stripTailArtifact (stripLeadArtifact line))
  if l = [] then acc
  else if 7 ≤ (splitWsJS l).length || startsWithL ['#'] l || startsWithL ['.'] l then
    acc ++ [l]
  else
    match acc with
    | [] => []
    | _ :: _ => appendToLast acc l

/-- The branch-C clean-up pass over all lines. -/
def cleanLines (lines : List (List Char)) : List (List Char) :=
  lines.foldl cleanStep []

/-- The branch-C `finalLines` map: re-tab a line that has no tabs but at
least seven whitespace-separated parts (first six joined by tabs, the
rest joined by spaces as the value). -/
def finalStep (l : List Char) : List Char :=
  if startsWithL "# ".data l then l
  else if l.contains '\t' then l
  else
    let parts := splitWsJS l
    if 7 ≤ parts.length then
      joinSep '\t' (parts.take 6) ++ '\t' :: joinSep ' ' (parts.drop 6)
    else l

/-- The content-producing part of `getCookiesPath` on a raw credential
blob. -/
def getCookiesForm (raw : List Char) : CookieNorm :=
  if startsWithL "# Netscape".data (trimL raw) ||
      containsSeq "\tTRUE\t".data (trimL raw) then
    .passthrough
      ((if startsWithL "# Netscape".data (trimL raw) then trimL raw
        else netscapeHeader ++ '\n' :: trimL raw) ++ ['\n'])
  else if startsWithL "\x7b".data (trimL raw) ||
      startsWithL "[".data (trimL raw) then
    .jsonForm (trimL raw)
  else
    .cleaned
      (netscapeHeader ++ '\n' ::
        joinSep '\n'
          ((cleanLines (splitP (· = '\n') (trimL raw))).map finalStep) ++ ['\n'])

/-- The bytes the normalizer writes to the temp file, when the branch is
embedded in full (`none` for the JSON branch, whose writing path is
`convertCookiesContent`). -/
def writtenContent : CookieNorm → Option (List Char)
  | .passthrough c => some c
  | .cleaned c => some c
  | .jsonForm _ => none

/-! ### Spec-side grammar for well-formed flat-file cookie input

Modelled from the spec: a well-formed flat-file cookie input consists
of optional leading `#`-comment lines, then tab-separated 7-field
cookie lines, with a trailing newline (§3 NormalizedCredential
invariant, §8 credential round-trip).  Used as the precondition of the
round-trip claim. -/

/-- A cookie line: exactly seven tab-separated fields. -/
def isCookieLineB (l : List Char) : Bool :=
  (splitP (· = '\t') l).length = 7

/-- A comment line: starts with `#` and is not itself a 7-field cookie
line (`#HttpOnly_`-prefixed cookie lines are cookie lines, not
comments). -/
def isCommentLineB (l : List Char) : Bool :=
  startsWithL ['#'] l && !isCookieLineB l

/-- Modelled from the spec: the flat-file (Netscape) cookie grammar —
optional leading comment lines, then at least one tab-separated 7-field
cookie line, trailing newline. -/
def wellFormedNetscape (s : List Char) : Bool :=
  s ≠ [] && s.getLast? = some '\n' &&
    (let ls := splitP (· = '\n') s.dropLast
     let rest := ls.dropWhile isCommentLineB
     rest ≠ [] && rest.all isCookieLineB)

/-! ### Metadata cache and `GET /api/resolve` caching behaviour

Embedding of the `metadataCache` / `CACHE_TTL` logic of
`GET /api/resolve`: the cache is an insert-ordered association list
(first match wins, insertion prepends, which models `Map.set`
overwriting), and one handler run is a step function taking the
outcome the external tool would produce as an oracle. -/

/-- The cache TTL: `CACHE_TTL = 10 * 60 * 1000` milliseconds. -/
def CACHE_TTL : Nat := 10 * 60 * 1000

/-- One cache slot: `{ data, timestamp }`. -/
structure CacheEntry (α : Type) where
  data : α
  timestamp : Nat
  deriving DecidableEq

/-- JS `metadataCache.get(cleanUrl)` on the association-list model. -/
def cacheGet {α : Type} (cache : List (List Char × CacheEntry α)) (key : List Char) :
    Option (CacheEntry α) :=
  match cache with
  | [] => none
  | (k, e) :: rest => if k = key then some e else cacheGet rest key

/-- Outcome of one full resolution attempt by the external tool
(direct-URL mode, falling back to metadata mode): either some response
data to cache and return, or overall failure (HTTP 500, nothing
cached). -/
inductive ResolveOutcome (α : Type) where
  | ok (data : α)
  | fail
  deriving DecidableEq

/-- Result of one `GET /api/resolve` run: response, updated cache, and
whether the external tool was invoked. -/
structure ResolveStepResult (α : Type) where
  response : ResolveOutcome α
  cache : List (List Char × CacheEntry α)
  invokedTool : Bool
  deriving DecidableEq

/-- One `GET /api/resolve` run for `url` at time `now`: serve a cached
entry when `Date.now() - cached.timestamp < CACHE_TTL`, otherwise
invoke the tool and cache a successful result with the current
timestamp (the subtraction is JS number arithmetic, modelled on `Int`). -/
def resolveStep {α : Type} (cache : List (List Char × CacheEntry α)) (now : Nat)
    (url : List Char) (tool : ResolveOutcome α) : ResolveStepResult α :=
  let cleanUrl := trimL url
  match cacheGet cache cleanUrl with
  | some cached =>
    if (now : Int) - cached.timestamp < (CACHE_TTL : Int) then
      { response := .ok cached.data, cache := cache, invokedTool := false }
    else
      match tool with
      | .ok d => { response := .ok d,
                   cache := (cleanUrl, ⟨d, now⟩) :: cache, invokedTool := true }
      | .fail => { response := .fail, cache := cache, invokedTool := true }
  | none =>
    match tool with
    | .ok d => { response := .ok d,
                 cache := (cleanUrl, ⟨d, now⟩) :: cache, invokedTool := true }
    | .fail => { response := .fail, cache := cache, invokedTool := true }

/-! ### `GET /api/resolve` metadata fallback (`-J` branch)

Embedding of the response construction after the full-JSON metadata
extraction succeeds: choice of `previewUrl` from the document's
top-level `url`, else the last format with both codecs, else the
thumbnail as a non-playable preview.  Absent JSON fields are `none`;
JS string truthiness (`undefined`/`""` falsy) is `jsTruthyStr`. -/

/-- JS truthiness of a possibly-absent string. -/
def jsTruthyStr : Option (List Char) → Bool
  | none => false
  | some s => s ≠ []

/-- One entry of the metadata document's `formats` array, with the
fields the handler reads. -/
structure MetaFormat where
  url : Option (List Char)
  vcodec : Option (List Char)
  acodec : Option (List Char)
  deriving DecidableEq

/-- The metadata document fields the fallback branch reads. -/
structure MetaDoc where
  url : Option (List Char)
  formats : Option (List MetaFormat)
  thumbnail : Option (List Char)
  deriving DecidableEq

/-- The format filter `f.vcodec !== 'none' && f.acodec !== 'none'`. -/
def bothCodecs (f : MetaFormat) : Bool :=
  f.vcodec ≠ some "none".data && f.acodec ≠ some "none".data

/-- JS `let previewUrl = data.url; if (!previewUrl && data.formats) { const
best = data.formats.filter(...).pop(); if (best) previewUrl = best.url }`. -/
def selectPreviewUrl (d : MetaDoc) : Option (List Char) :=
  let p := d.url
  if !jsTruthyStr p && d.formats.isSome then
    match ((d.formats.getD []).filter bothCodecs).getLast? with
    | some best => best.url
    | none => p
  else p

/-- The `can_preview` / `preview_url` pair of the fallback response:
`can_preview: !!previewUrl`, `preview_url: previewUrl || data.thumbnail
|| null`. -/
structure PreviewResp where
  can_preview : Bool
  preview_url : Option (List Char)
  deriving DecidableEq

/-- Build the preview part of the fallback response from the parsed
metadata document. -/
def fallbackPreview (d : MetaDoc) : PreviewResp :=
  let p := selectPreviewUrl d
  { can_preview := jsTruthyStr p
  , preview_url := if jsTruthyStr p then p
                   else if jsTruthyStr d.thumbnail then d.thumbnail else none }

/-! ### `POST /api/transcribe` streaming pipeline

Embedding of the NDJSON streaming handler as a trace-producing
function over one run.  A run is described by: whether the downloader
process failed to start, the stderr chunks, the stdout chunks, and the
inference-service outcome.  Events are the NDJSON lines written with
`res.write`; `res.end()` closes the stream, and a callback firing
after the stream has ended cannot append to it (Node discards a write
after end), so a trace is everything up to and including the terminal
write. -/

/-- The inline-data payload ceiling, `20 * 1024 * 1024` bytes. -/
def CEIL20 : Nat := 20 * 1024 * 1024

/-- The parsed transcription JSON object: each of the three schema keys
may be absent from the service's response text. -/
structure TransJson where
  title : Option (List Char)
  originalText : Option (List Char)
  translatedText : Option (List Char)
  deriving DecidableEq

/-- Outcome of the `generateContent` call and subsequent parsing:
the call throws; the response has falsy `.text`; `JSON.parse` of the
text throws; or the text parses to a JSON object. -/
inductive GeminiOutcome where
  | apiThrow (msg : List Char)
  | emptyText
  | badJson (msg : List Char)
  | parsed (j : TransJson)
  deriving DecidableEq

/-- One NDJSON event written to the response stream. -/
inductive TEvent where
  | progress (value : List Char)
  | status (message : List Char)
  | result (data : TransJson)
  | error (message : List Char)
  deriving DecidableEq

/-- One run of the pipeline after validation has passed. -/
structure TranscribeRun where
  spawnFailed : Bool
  stderrChunks : List (List Char)
  stdoutChunks : List (List Nat)
  gemini : GeminiOutcome
  deriving DecidableEq

/-- The `required` key list of the declared `responseSchema`. -/
def transcribeRequiredKeys : List (List Char) :=
  ["originalText".data, "translatedText".data, "title".data]

/-- Match the progress regex `\[download\]\s+(\d+\.\d+)%` at the very
start of `cs` once the literal token has been consumed: at least one
whitespace character, then digits, a dot, digits, and `%`; returns the
captured `\d+\.\d+` group.  Greedy runs are exact here because `\s` and
`\d` are disjoint and each run's follower is excluded from the run. -/
def matchPercentAfter (cs : List Char) : Option (List Char) :=
  let w := (cs.span isWsCh).1
  let r1 := (cs.span isWsCh).2
  if w = [] then none
  else
    let a := (r1.span Char.isDigit).1
    let r2 := (r1.span Char.isDigit).2
    if a = [] then none
    else
      match r2 with
      | '.' :: r3 =>
        let b := (r3.span Char.isDigit).1
        let r4 := (r3.span Char.isDigit).2
        if b = [] then none
        else
          match r4 with
          | '%' :: _ => some (a ++ '.' :: b)
          | _ => none
      | _ => none

/-- JS `text.match(/\[download\]\s+(\d+\.\d+)%/)`: scan left-to-right for
the literal `[download]` token followed by the percentage pattern;
return the captured group of the first match. -/
def findDownloadPercent : List Char → Option (List Char)
  | [] => none
  | c :: rest =>
    if startsWithL "[download]".data (c :: rest) then
      match matchPercentAfter ((c :: rest).drop ("[download]".data).length) with
      | some v => some v
      | none => findDownloadPercent rest
    else findDownloadPercent rest

/-- The events written by the stderr `data` handler: one `progress`
event per chunk whose text matches the progress regex. -/
def progressEvents (chunks : List (List Char)) : List TEvent :=
  chunks.filterMap (fun c => (findDownloadPercent c).map TEvent.progress)

/-- The stdout chunks the handler receives: every chunk is pushed in
full; once the cumulative length exceeds the 20 MB ceiling the process
is killed, so no later chunk is delivered. -/
def deliverChunks (tot : Nat) : List (List Nat) → List (List Nat)
  | [] => []
  | c :: rest =>
    c :: (if CEIL20 < tot + c.length then [] else deliverChunks (tot + c.length) rest)

/-- Whether the stdout handler's ceiling check fires (`totalLength >
20 * 1024 * 1024` → `child.kill()`). -/
def killedAfter (tot : Nat) : List (List Nat) → Bool
  | [] => false
  | c :: rest =>
    if CEIL20 < tot + c.length then true else killedAfter (tot + c.length) rest

/-- JS `Buffer.concat(chunks)` over the delivered chunks. -/
def fetchedBuffer (chunks : List (List Nat)) : List Nat :=
  (deliverChunks 0 chunks).flatten

/-- The events written by the `close` handler: an `error` event for an
empty buffer; otherwise the `status` event, then `result` on a parsed
response or `error` on any inference failure (thrown call, falsy text,
or unparseable text). -/
def closeEvents (buffer : List Nat) (g : GeminiOutcome) : List TEvent :=
  if buffer = [] then
    [.error "Failed to fetch media bytes.".data]
  else
    .status "Processing audio with Gemini...".data ::
      (match g with
       | .apiThrow m => [.error m]
       | .emptyText => [.error "Gemini returned empty response".data]
       | .badJson m => [.error m]
       | .parsed j => [.result j])

/-- The full NDJSON trace of one pipeline run: a lone `error` event if
the downloader process could not start, otherwise the stderr progress
events (all stdio data precedes `close`) followed by the close-handler
events. -/
def transcribeTrace (r : TranscribeRun) : List TEvent :=
  if r.spawnFailed then
    [.error "Failed to start downloader process".data]
  else
    progressEvents r.stderrChunks ++ closeEvents (fetchedBuffer r.stdoutChunks) r.gemini

/-- A response of `POST /api/transcribe`: either the pre-stream JSON
validation error, or the NDJSON stream. -/
inductive TranscribeResponse where
  | jsonError (status : Nat) (error : List Char)
  | stream (events : List TEvent)
  deriving DecidableEq

/-- The whole handler: `if (!url) return res.status(400).json({ error:
"Missing URL" })`, otherwise run the streaming pipeline. -/
def handleTranscribe (url : Option (List Char)) (r : TranscribeRun) : TranscribeResponse :=
  if !jsTruthyStr url then .jsonError 400 "Missing URL".data
  else .stream (transcribeTrace r)

/-- The stream events of a response (none for a JSON error body). -/
def streamEvents : TranscribeResponse → List TEvent
  | .jsonError _ _ => []
  | .stream es => es

/-- Terminal events of the NDJSON protocol. -/
def isTerminal : TEvent → Bool
  | .result _ => true
  | .error _ => true
  | .progress _ => false
  | .status _ => false

/-! ### Statement-level definitions for the claims -/

/-- The NDJSON ordering invariant: zero or more non-terminal events
followed by exactly one terminal event, nothing after it. -/
def ndjsonShape (t : List TEvent) : Prop :=
  ∃ pre last, t = pre ++ [last] ∧
    (∀ e ∈ pre, isTerminal e = false) ∧ isTerminal last = true

/-- Total byte length of a chunk sequence. -/
def sumLens (chunks : List (List Nat)) : Nat :=
  (chunks.map List.length).sum

/-- Largest single chunk length of a chunk sequence. -/
def maxChunkLen (chunks : List (List Nat)) : Nat :=
  (chunks.map List.length).foldr max 0

/-- A diagnostic text contains a `[download]` token followed by
whitespace and a decimal-fraction percentage (`\d+.\d+%`): the
spec-side reading of the progress pattern. -/
def decimalDownloadToken (cs : List Char) : Prop :=
  ∃ u w a b v,
    cs = u ++ "[download]".data ++ w ++ a ++ '.' :: b ++ '%' :: v ∧
    w ≠ [] ∧ w.all isWsCh = true ∧
    a ≠ [] ∧ a.all Char.isDigit = true ∧
    b ≠ [] ∧ b.all Char.isDigit = true

/-- A character that can sit inside a tab-separated single-line field:
neither a tab nor a newline. -/
def fieldChOk (ch : Char) : Bool :=
  ch ≠ '\t' && ch ≠ '\n'

/-- All string fields of a cookie record are free of tabs and
newlines. -/
def cookieFieldsOk (c : JsonCookie) : Bool :=
  c.domain.all fieldChOk && c.host.all fieldChOk && c.name.all fieldChOk &&
    c.value.all fieldChOk && c.path.all fieldChOk

/-- C5 counterexample record: a host-only style domain without a dot
(`localhost`), not http-only. -/
def c5cex : JsonCookie :=
  { domain := "localhost".data
  , host := []
  , name := "n".data
  , value := "v".data
  , path := "/".data
  , secure := false
  , httpOnly := false
  , expirationDate := none }

/-- C6 counterexample input: a single well-formed cookie line whose
seventh (value) field is empty, with flag and secure both `FALSE` and
no canonical header. -/
def c6cex : List Char := ".a.com\tFALSE\t/\tFALSE\t0\tn\t\n".data

/-- C6 witness input: a well-formed file that already carries the
canonical header. -/
def c6wit : List Char :=
  "# Netscape HTTP Cookie File\n.a.com\tTRUE\t/\tFALSE\t0\tn\tv\n".data

/-! ## Lemmas -/

/-! ### Basic lemmas about the primitives -/

theorem joinSep_cons_cons (sep : Char) (a b : List Char) (t : List (List Char)) :
    joinSep sep (a :: b :: t) = a ++ sep :: joinSep sep (b :: t) := rfl

theorem splitP_ne_nil (p : Char → Bool) (cs : List Char) : splitP p cs ≠ [] := by
  induction cs with
  | nil => simp [splitP]
  | cons c rest ih =>
    simp only [splitP]
    split
    · simp
    · cases h : splitP p rest with
      | nil => simp
      | cons r rs => simp [h]

theorem splitP_sep_free (p : Char → Bool) (a : List Char)
    (ha : ∀ c ∈ a, p c = false) : splitP p a = [a] := by
  induction a with
  | nil => rfl
  | cons c rest ih =>
    have hc : p c = false := ha c (by simp)
    have hrest : ∀ x ∈ rest, p x = false := fun x hx => ha x (by simp [hx])
    simp [splitP, hc, ih hrest]

theorem splitP_append_free (p : Char → Bool) (a b : List Char)
    (ha : ∀ c ∈ a, p c = false) :
    splitP p (a ++ b) =
      (a ++ (splitP p b).headI) :: (splitP p b).tail := by
  induction a with
  | nil =>
    simp only [List.nil_append]
    cases h : splitP p b with
    | nil => exact absurd h (splitP_ne_nil p b)
    | cons r rs => simp [h, List.headI]
  | cons c rest ih =>
    have hc : p c = false := ha c (by simp)
    have hrest : ∀ x ∈ rest, p x = false := fun x hx => ha x (by simp [hx])
    simp only [List.cons_append, splitP, hc, Bool.false_eq_true, if_false]
    rw [List.append_eq, ih hrest]

theorem splitP_sep_cons (p : Char → Bool) (c : Char) (b : List Char)
    (hc : p c = true) : splitP p (c :: b) = [] :: splitP p b := by
  simp [splitP, hc]

/-- Splitting a separator-joined nonempty list of separator-free pieces,
followed by one trailing separator, recovers the pieces plus one empty
final piece. -/
theorem splitP_joinSep_concat (p : Char → Bool) (sep : Char) (hsep : p sep = true)
    (ls : List (List Char)) (hne : ls ≠ [])
    (hfree : ∀ l ∈ ls, ∀ c ∈ l, p c = false) :
    splitP p (joinSep sep ls ++ [sep]) = ls ++ [[]] := by
  induction ls with
  | nil => exact absurd rfl hne
  | cons l rest ih =>
    cases rest with
    | nil =>
      have hl : ∀ c ∈ l, p c = false := hfree l (by simp)
      rw [joinSep]
      rw [splitP_append_free p l [sep] hl]
      simp [splitP, hsep, List.headI]
    | cons l2 rest2 =>
      have hl : ∀ c ∈ l, p c = false := hfree l (by simp)
      have hrest : ∀ x ∈ l2 :: rest2, ∀ c ∈ x, p c = false := by
        intro x hx c hc
        exact hfree x (by simp [hx]) c hc
      have ihr := ih (by simp) hrest
      rw [joinSep_cons_cons]
      have : (l ++ sep :: joinSep sep (l2 :: rest2)) ++ [sep] =
          l ++ sep :: (joinSep sep (l2 :: rest2) ++ [sep]) := by simp
      rw [this, splitP_append_free p l _ hl, splitP_sep_cons p sep _ hsep, ihr]
      simp [List.headI]

/-- Splitting a separator-joined nonempty list of separator-free pieces
recovers the pieces. -/
theorem splitP_joinSep (p : Char → Bool) (sep : Char) (hsep : p sep = true)
    (ls : List (List Char)) (hne : ls ≠ [])
    (hfree : ∀ l ∈ ls, ∀ c ∈ l, p c = false) :
    splitP p (joinSep sep ls) = ls := by
  induction ls with
  | nil => exact absurd rfl hne
  | cons l rest ih =>
    cases rest with
    | nil =>
      exact splitP_sep_free p l (hfree l (by simp))
    | cons l2 rest2 =>
      have hl : ∀ c ∈ l, p c = false := hfree l (by simp)
      have hrest : ∀ x ∈ l2 :: rest2, ∀ c ∈ x, p c = false := by
        intro x hx c hc
        exact hfree x (by simp [hx]) c hc
      have ihr := ih (by simp) hrest
      rw [joinSep_cons_cons, splitP_append_free p l _ hl, splitP_sep_cons p sep _ hsep, ihr]
      simp [List.headI]

theorem mem_joinSep {sep : Char} {ls : List (List Char)} :
    ∀ c ∈ joinSep sep ls, c = sep ∨ ∃ l ∈ ls, c ∈ l := by
  induction ls with
  | nil => simp [joinSep]
  | cons l rest ih =>
    cases rest with
    | nil => intro c hc; exact Or.inr ⟨l, by simp, hc⟩
    | cons l2 rest2 =>
      intro c hc
      rw [joinSep_cons_cons] at hc
      rcases List.mem_append.mp hc with h | h
      · exact Or.inr ⟨l, by simp, h⟩
      · rcases List.mem_cons.mp h with h | h
        · exact Or.inl h
        · rcases ih c h with h | ⟨x, hx, hcx⟩
          · exact Or.inl h
          · exact Or.inr ⟨x, by simp [hx], hcx⟩


/-! ### Lemmas about the transcribe trace -/

theorem progressEvents_not_terminal (chunks : List (List Char)) :
    ∀ e ∈ progressEvents chunks, isTerminal e = false := by
  intro e he
  simp only [progressEvents, List.mem_filterMap] at he
  obtain ⟨c, -, hc⟩ := he
  cases h : findDownloadPercent c with
  | none =>
    rw [h] at hc
    exact Option.noConfusion hc
  | some v =>
    rw [h] at hc
    have hev : TEvent.progress v = e := Option.some.inj hc
    rw [← hev]
    rfl

theorem closeEvents_shape (b : List Nat) (g : GeminiOutcome) :
    ∃ mid last, closeEvents b g = mid ++ [last] ∧
      (∀ e ∈ mid, isTerminal e = false) ∧ isTerminal last = true := by
  by_cases hb : b = []
  · exact ⟨[], .error "Failed to fetch media bytes.".data,
      by simp [closeEvents, hb], by simp, rfl⟩
  · cases g with
    | apiThrow m =>
      exact ⟨[.status "Processing audio with Gemini...".data], .error m,
        by simp [closeEvents, hb], by simp [isTerminal], rfl⟩
    | emptyText =>
      exact ⟨[.status "Processing audio with Gemini...".data],
        .error "Gemini returned empty response".data,
        by simp [closeEvents, hb], by simp [isTerminal], rfl⟩
    | badJson m =>
      exact ⟨[.status "Processing audio with Gemini...".data], .error m,
        by simp [closeEvents, hb], by simp [isTerminal], rfl⟩
    | parsed j =>
      exact ⟨[.status "Processing audio with Gemini...".data], .result j,
        by simp [closeEvents, hb], by simp [isTerminal], rfl⟩

/-! ## Claims -/

/-- C1: for every run of the `POST /api/transcribe` streaming handler,
the NDJSON response consists of zero or more `progress`/`status`
events followed by exactly one terminal event — a `result` event on
success or an `error` event on failure — and no event of any type is
written to the stream after the terminal event. -/
theorem claim_C1_stream_shape (r : TranscribeRun) : ndjsonShape (transcribeTrace r) := by
  unfold transcribeTrace
  by_cases hs : r.spawnFailed
  · exact ⟨[], .error "Failed to start downloader process".data,
      by simp [hs], by simp, rfl⟩
  · simp only [hs, Bool.false_eq_true, if_false]
    obtain ⟨mid, last, heq, hmid, hlast⟩ :=
      closeEvents_shape (fetchedBuffer r.stdoutChunks) r.gemini
    refine ⟨progressEvents r.stderrChunks ++ mid, last, ?_, ?_, hlast⟩
    · rw [heq, List.append_assoc]
    · intro e he
      rcases List.mem_append.mp he with h | h
      · exact progressEvents_not_terminal _ e h
      · exact hmid e h

/-- C8: a `POST /api/transcribe` request with a missing URL gets a
conventional JSON error body with HTTP status 400, not an NDJSON
stream, and no `progress`/`status`/`result`/`error` stream event is
emitted for it. -/
theorem claim_C8_missing_url (r : TranscribeRun) :
    handleTranscribe none r = .jsonError 400 "Missing URL".data ∧
    streamEvents (handleTranscribe none r) = [] := by
  constructor <;> rfl

/-- C4: starting from an empty cache, a first `GET /api/resolve` call
at time `t1` that resolves successfully invokes the external tool and
caches the result; a second call for the same trimmed URL within
`CACHE_TTL` returns the same cached data without invoking the tool
(so the tool runs at most once in total), while a second call at or
after TTL expiry invokes the tool again. -/
theorem claim_C4_cache_idempotence {α : Type} (url : List Char) (t1 t2 : Nat)
    (d1 : α) (tool2 : ResolveOutcome α) (h12 : t1 ≤ t2) :
    (resolveStep ([] : List (List Char × CacheEntry α)) t1 url (.ok d1)).invokedTool
        = true ∧
    (resolveStep ([] : List (List Char × CacheEntry α)) t1 url (.ok d1)).response
        = .ok d1 ∧
    (t2 - t1 < CACHE_TTL →
      (resolveStep (resolveStep ([] : List (List Char × CacheEntry α)) t1 url
          (.ok d1)).cache t2 url tool2).response = .ok d1 ∧
      (resolveStep (resolveStep ([] : List (List Char × CacheEntry α)) t1 url
          (.ok d1)).cache t2 url tool2).invokedTool = false) ∧
    (CACHE_TTL ≤ t2 - t1 →
      (resolveStep (resolveStep ([] : List (List Char × CacheEntry α)) t1 url
          (.ok d1)).cache t2 url tool2).invokedTool = true) := by
  have hstep1 : resolveStep ([] : List (List Char × CacheEntry α)) t1 url (.ok d1) =
      { response := .ok d1, cache := [(trimL url, ⟨d1, t1⟩)], invokedTool := true } := rfl
  have hget : cacheGet [(trimL url, (⟨d1, t1⟩ : CacheEntry α))] (trimL url) =
      some ⟨d1, t1⟩ := by simp [cacheGet]
  refine ⟨by rw [hstep1], by rw [hstep1], ?_, ?_⟩
  · intro hin
    have hlt : (t2 : Int) - (((⟨d1, t1⟩ : CacheEntry α)).timestamp : Int) <
        (CACHE_TTL : Int) := by
      show (t2 : Int) - (t1 : Int) < (CACHE_TTL : Int)
      omega
    rw [hstep1]
    simp [resolveStep, hget, hlt]
  · intro hout
    have hge : ¬ ((t2 : Int) - (((⟨d1, t1⟩ : CacheEntry α)).timestamp : Int) <
        (CACHE_TTL : Int)) := by
      show ¬ ((t2 : Int) - (t1 : Int) < (CACHE_TTL : Int))
      omega
    rw [hstep1]
    simp only [resolveStep, hget]
    rw [if_neg hge]
    cases tool2 <;> rfl

/-- Witness for C4 at a concrete URL, timestamps 0 and 1, cached data
`5`. -/
theorem claim_C4_witness :
    (resolveStep (resolveStep ([] : List (List Char × CacheEntry Nat)) 0 "u".data
        (.ok 5)).cache 1 "u".data .fail).response = .ok 5 ∧
    (resolveStep (resolveStep ([] : List (List Char × CacheEntry Nat)) 0 "u".data
        (.ok 5)).cache 1 "u".data .fail).invokedTool = false :=
  (claim_C4_cache_idempotence "u".data 0 1 5 .fail (by decide)).2.2.1 (by decide)

/-- C7: in the metadata fallback of `GET /api/resolve`, the preview URL
is the document's top-level `url` when truthy; failing that, the `url`
of the last format whose video and audio codecs are both present
(not `'none'`); failing that, the response falls back to the
document's `thumbnail` with `can_preview` false. -/
theorem claim_C7_metadata_fallback (d : MetaDoc) :
    (jsTruthyStr d.url = true →
      fallbackPreview d = { can_preview := true, preview_url := d.url }) ∧
    (∀ best, jsTruthyStr d.url = false →
      ((d.formats.getD []).filter bothCodecs).getLast? = some best →
      jsTruthyStr best.url = true →
      fallbackPreview d = { can_preview := true, preview_url := best.url }) ∧
    (jsTruthyStr d.url = false →
      (d.formats.getD []).filter bothCodecs = [] →
      fallbackPreview d =
        { can_preview := false
        , preview_url := if jsTruthyStr d.thumbnail then d.thumbnail else none }) := by
  refine ⟨?_, ?_, ?_⟩
  · intro hu
    have hp : selectPreviewUrl d = d.url := by
      simp [selectPreviewUrl, hu]
    simp [fallbackPreview, hp, hu]
  · intro best hu hlast hbest
    have hfs : d.formats.isSome = true := by
      cases hf : d.formats with
      | none => rw [hf] at hlast; simp at hlast
      | some fs => rfl
    have hp : selectPreviewUrl d = best.url := by
      simp only [selectPreviewUrl, hu, Bool.not_false, hfs, Bool.true_and, if_true]
      rw [hlast]
    simp [fallbackPreview, hp, hbest]
  · intro hu hfilter
    have hp : selectPreviewUrl d = d.url := by
      simp only [selectPreviewUrl, hu, Bool.not_false]
      cases hf : d.formats with
      | none => simp
      | some fs =>
        rw [hf] at hfilter
        simp only [Option.getD_some] at hfilter ⊢
        rw [hfilter]
        simp
    simp [fallbackPreview, hp, hu]

/-- Witness for C7: a document with no top-level URL and no
video+audio format falls back to the thumbnail, not playable. -/
theorem claim_C7_witness :
    fallbackPreview
        { url := none
        , formats := some [{ url := some "u1".data, vcodec := some "none".data,
                             acodec := some "aac".data }]
        , thumbnail := some "th".data } =
      { can_preview := false, preview_url := some "th".data } := by
  have h := (claim_C7_metadata_fallback
    { url := none
    , formats := some [{ url := some "u1".data, vcodec := some "none".data,
                         acodec := some "aac".data }]
    , thumbnail := some "th".data }).2.2 (by decide) (by decide)
  simpa using h

/-! ### Lemmas about the byte ceiling -/

theorem sumLens_cons (c : List Nat) (rest : List (List Nat)) :
    sumLens (c :: rest) = c.length + sumLens rest := by
  simp [sumLens]

theorem maxChunkLen_cons (c : List Nat) (rest : List (List Nat)) :
    maxChunkLen (c :: rest) = max c.length (maxChunkLen rest) := rfl

theorem killedAfter_of_sum (chunks : List (List Nat)) :
    ∀ tot, tot ≤ CEIL20 → CEIL20 < tot + sumLens chunks →
      killedAfter tot chunks = true := by
  induction chunks with
  | nil =>
    intro tot h1 h2
    simp [sumLens] at h2
    omega
  | cons c rest ih =>
    intro tot h1 h2
    rw [killedAfter]
    by_cases hc : CEIL20 < tot + c.length
    · simp [hc]
    · simp only [hc, if_false]
      rw [sumLens_cons] at h2
      exact ih (tot + c.length) (by omega) (by omega)

theorem deliverChunks_sum_gt (chunks : List (List Nat)) :
    ∀ tot, CEIL20 < tot + sumLens chunks →
      CEIL20 < tot + sumLens (deliverChunks tot chunks) := by
  induction chunks with
  | nil => intro tot h; simpa [deliverChunks] using h
  | cons c rest ih =>
    intro tot h
    rw [deliverChunks]
    by_cases hc : CEIL20 < tot + c.length
    · simp only [hc, if_true]
      rw [sumLens_cons]
      simp [sumLens]
      omega
    · simp only [hc, if_false]
      rw [sumLens_cons] at h
      have h2 := ih (tot + c.length) (by omega)
      rw [sumLens_cons]
      omega

theorem deliverChunks_sum_le (chunks : List (List Nat)) :
    ∀ tot, tot ≤ CEIL20 →
      sumLens (deliverChunks tot chunks) ≤ (CEIL20 - tot) + maxChunkLen chunks := by
  induction chunks with
  | nil => intro tot h; simp [deliverChunks, sumLens]
  | cons c rest ih =>
    intro tot h
    rw [deliverChunks]
    by_cases hc : CEIL20 < tot + c.length
    · simp only [hc, if_true]
      rw [sumLens_cons]
      have hm := Nat.le_max_left c.length (maxChunkLen rest)
      rw [maxChunkLen_cons]
      simp [sumLens]
      omega
    · simp only [hc, if_false]
      rw [sumLens_cons, maxChunkLen_cons]
      have h2 := ih (tot + c.length) (by omega)
      have hm := Nat.le_max_right c.length (maxChunkLen rest)
      omega

theorem deliverChunks_prefix_of (chunks : List (List Nat)) :
    ∀ tot, ∃ rest, chunks = deliverChunks tot chunks ++ rest := by
  induction chunks with
  | nil => intro tot; exact ⟨[], rfl⟩
  | cons c cs ih =>
    intro tot
    rw [deliverChunks]
    by_cases hc : CEIL20 < tot + c.length
    · refine ⟨cs, ?_⟩
      simp [hc]
    · obtain ⟨r, hr⟩ := ih (tot + c.length)
      refine ⟨r, ?_⟩
      simp only [hc, if_false, List.cons_append]
      exact congrArg (c :: ·) hr

theorem deliverChunks_all (chunks : List (List Nat)) :
    ∀ tot, tot + sumLens chunks ≤ CEIL20 → deliverChunks tot chunks = chunks := by
  induction chunks with
  | nil => intro tot _; rfl
  | cons c rest ih =>
    intro tot h
    rw [sumLens_cons] at h
    rw [deliverChunks]
    have hc : ¬ CEIL20 < tot + c.length := by omega
    simp only [hc, if_false]
    rw [ih (tot + c.length) (by omega)]

theorem flatten_length_sumLens (l : List (List Nat)) :
    l.flatten.length = sumLens l := by
  simp [sumLens]

/-- C2: for every stdout chunk sequence whose total size exceeds the
20 MB ceiling, the subprocess is killed, and the outcome is either a
truncated non-empty buffer handed on to the inference step (the
`status` event) or the empty-buffer `error` event; the delivered
buffer is bounded by the ceiling plus one chunk, never unbounded. -/
theorem claim_C2_ceiling (chunks : List (List Nat)) (g : GeminiOutcome)
    (h : CEIL20 < sumLens chunks) :
    killedAfter 0 chunks = true ∧
    ((fetchedBuffer chunks ≠ [] ∧
      (closeEvents (fetchedBuffer chunks) g).head? =
        some (.status "Processing audio with Gemini...".data)) ∨
     (fetchedBuffer chunks = [] ∧
      closeEvents (fetchedBuffer chunks) g =
        [.error "Failed to fetch media bytes.".data])) ∧
    (fetchedBuffer chunks).length ≤ CEIL20 + maxChunkLen chunks := by
  have hkill := killedAfter_of_sum chunks 0 (Nat.zero_le _) (by omega)
  have hgt := deliverChunks_sum_gt chunks 0 (by omega)
  have hle := deliverChunks_sum_le chunks 0 (Nat.zero_le _)
  have hlen : (fetchedBuffer chunks).length = sumLens (deliverChunks 0 chunks) :=
    flatten_length_sumLens _
  have hne : fetchedBuffer chunks ≠ [] := by
    intro h0
    rw [h0] at hlen
    simp at hlen
    omega
  refine ⟨hkill, Or.inl ⟨hne, ?_⟩, ?_⟩
  · simp [closeEvents, hne]
  · rw [hlen]
    omega

/-- Witness for C2: a single chunk one byte over the ceiling triggers
the kill. -/
theorem claim_C2_witness :
    killedAfter 0 [List.replicate (CEIL20 + 1) 0] = true :=
  (claim_C2_ceiling [List.replicate (CEIL20 + 1) 0] .emptyText
    (by simp only [sumLens, List.map_cons, List.map_nil, List.length_replicate,
          List.sum_cons, List.sum_nil]
        omega)).1

/-- C10: the 20 MB ceiling is a termination trigger, not a cap: the
delivered chunks are an unmodified prefix of the emitted chunks (every
received chunk is retained in full), a sequence within the ceiling is
delivered whole, and a chunk sequence exists whose concatenated buffer
handed to inference strictly exceeds 20 MB. -/
theorem claim_C10_ceiling_not_cap :
    (∀ chunks : List (List Nat), ∃ rest, chunks = deliverChunks 0 chunks ++ rest) ∧
    (∀ chunks : List (List Nat), sumLens chunks ≤ CEIL20 →
      deliverChunks 0 chunks = chunks) ∧
    CEIL20 < (fetchedBuffer [List.replicate (CEIL20 + 1) 0]).length := by
  refine ⟨fun chunks => deliverChunks_prefix_of chunks 0,
    fun chunks h => deliverChunks_all chunks 0 (by omega), ?_⟩
  have hdel : deliverChunks 0 [List.replicate (CEIL20 + 1) 0] =
      [List.replicate (CEIL20 + 1) 0] := by
    rw [deliverChunks]
    simp [deliverChunks]
  have hfl : (fetchedBuffer [List.replicate (CEIL20 + 1) 0]).length =
      sumLens (deliverChunks 0 [List.replicate (CEIL20 + 1) 0]) :=
    flatten_length_sumLens _
  rw [hfl, hdel]
  simp only [sumLens, List.map_cons, List.map_nil, List.length_replicate,
    List.sum_cons, List.sum_nil]
  omega

/-- Witness for C10: a two-chunk sequence within the ceiling is
delivered unchanged. -/
theorem claim_C10_witness :
    deliverChunks 0 [[1], [2]] = [[1], [2]] :=
  claim_C10_ceiling_not_cap.2.1 [[1], [2]] (by decide)

/-! ### C3: inference response schema -/

/-- The last event of a run with a nonempty buffer is determined by the
inference outcome. -/
theorem transcribeTrace_getLast (r : TranscribeRun) (h1 : r.spawnFailed = false)
    (h2 : fetchedBuffer r.stdoutChunks ≠ []) :
    (transcribeTrace r).getLast? =
      (match r.gemini with
       | .apiThrow m => some (.error m)
       | .emptyText => some (.error "Gemini returned empty response".data)
       | .badJson m => some (.error m)
       | .parsed j => some (.result j)) := by
  unfold transcribeTrace
  simp only [h1, Bool.false_eq_true, if_false]
  rw [List.getLast?_append_of_ne_nil _ (by simp [closeEvents, h2])]
  cases r.gemini <;> simp [closeEvents, h2]

/-- C3 counterexample: a run whose inference response parses to a JSON
object with no `title` key ends in a `result` event carrying the
partial object — the missing field is passed through to the caller,
not rejected with an error event. -/
theorem claim_C3_counterexample :
    transcribeTrace
        { spawnFailed := false
        , stderrChunks := []
        , stdoutChunks := [[1]]
        , gemini := .parsed { title := none, originalText := some "hello".data,
                              translatedText := some "bonjour".data } } =
      [.status "Processing audio with Gemini...".data,
       .result { title := none, originalText := some "hello".data,
                 translatedText := some "bonjour".data }] := by
  decide

/-- C3 (amended): the request schema declares all three keys required;
an inference response with no text at all is surfaced as a terminal
`error` event; but a response that parses to a JSON object is passed
through unmodified in the `result` event — its fields are not
defaulted, and missing keys are not locally rejected (required-keys
enforcement is delegated to the service via the declared
`responseSchema`). -/
theorem claim_C3_schema (r : TranscribeRun) (j : TransJson)
    (h1 : r.spawnFailed = false) (h2 : fetchedBuffer r.stdoutChunks ≠ []) :
    transcribeRequiredKeys =
      ["originalText".data, "translatedText".data, "title".data] ∧
    (r.gemini = .emptyText →
      (transcribeTrace r).getLast? =
        some (.error "Gemini returned empty response".data)) ∧
    (r.gemini = .parsed j →
      (transcribeTrace r).getLast? = some (.result j)) := by
  refine ⟨rfl, ?_, ?_⟩
  · intro hg
    rw [transcribeTrace_getLast r h1 h2, hg]
  · intro hg
    rw [transcribeTrace_getLast r h1 h2, hg]

/-- Witness for C3 (amended): an empty inference response on a
one-byte buffer ends in the empty-response error event. -/
theorem claim_C3_witness :
    (transcribeTrace
        { spawnFailed := false
        , stderrChunks := []
        , stdoutChunks := [[2]]
        , gemini := .emptyText }).getLast? =
      some (.error "Gemini returned empty response".data) :=
  (claim_C3_schema
    { spawnFailed := false
    , stderrChunks := []
    , stdoutChunks := [[2]]
    , gemini := .emptyText }
    { title := none, originalText := none, translatedText := none }
    rfl (by decide)).2.1 rfl

/-! ### C9: the progress regex -/

theorem takeWhile_all_self (p : Char → Bool) (l : List Char) :
    (l.takeWhile p).all p = true := by
  induction l with
  | nil => rfl
  | cons c rest ih =>
    rw [List.takeWhile_cons]
    by_cases hc : p c
    · simp [hc, ih]
    · simp [hc]

theorem startsWithL_iff (p s : List Char) :
    startsWithL p s = true ↔ ∃ t, s = p ++ t := by
  induction p generalizing s with
  | nil =>
    simp [startsWithL]
  | cons a ps ih =>
    cases s with
    | nil => simp [startsWithL]
    | cons c cs =>
      rw [startsWithL]
      simp only [Bool.and_eq_true, decide_eq_true_eq, ih]
      constructor
      · rintro ⟨hac, t, ht⟩
        exact ⟨t, by rw [List.cons_append, hac, ht]⟩
      · rintro ⟨t, ht⟩
        rw [List.cons_append] at ht
        injection ht with h1 h2
        exact ⟨h1.symm, t, h2⟩

theorem matchPercentAfter_decomp (cs v : List Char)
    (h : matchPercentAfter cs = some v) :
    ∃ w a b rest, cs = w ++ a ++ '.' :: b ++ '%' :: rest ∧
      w ≠ [] ∧ w.all isWsCh = true ∧
      a ≠ [] ∧ a.all Char.isDigit = true ∧
      b ≠ [] ∧ b.all Char.isDigit = true := by
  simp only [matchPercentAfter, List.span_eq_take_drop] at h
  split at h
  · exact absurd h (by simp)
  · rename_i hw
    split at h
    · exact absurd h (by simp)
    · rename_i ha
      split at h
      case h_2 => exact absurd h (by simp)
      rename_i r3 hdrop1
      split at h
      · exact absurd h (by simp)
      · rename_i hb
        split at h
        case h_2 => exact absurd h (by simp)
        rename_i r5 hdrop2
        refine ⟨cs.takeWhile isWsCh,
          (cs.dropWhile isWsCh).takeWhile Char.isDigit,
          r3.takeWhile Char.isDigit, r5, ?_, hw, takeWhile_all_self _ _,
          ha, takeWhile_all_self _ _, hb, takeWhile_all_self _ _⟩
        have h3 : r3.takeWhile Char.isDigit ++ '%' :: r5 = r3 := by
          conv_rhs => rw [← List.takeWhile_append_dropWhile (p := Char.isDigit) (l := r3)]
          rw [hdrop2]
        have h2 : (cs.dropWhile isWsCh).takeWhile Char.isDigit ++ '.' :: r3 =
            cs.dropWhile isWsCh := by
          conv_rhs =>
            rw [← List.takeWhile_append_dropWhile (p := Char.isDigit)
              (l := cs.dropWhile isWsCh)]
          rw [hdrop1]
        simp only [List.append_assoc, List.cons_append]
        rw [h3, h2]
        exact (List.takeWhile_append_dropWhile _ _).symm

theorem findDownloadPercent_decomp (cs v : List Char)
    (h : findDownloadPercent cs = some v) :
    ∃ u rest, cs = u ++ "[download]".data ++ rest ∧
      matchPercentAfter rest = some v := by
  induction cs with
  | nil => exact absurd h (by simp [findDownloadPercent])
  | cons c cs2 ih =>
    rw [findDownloadPercent] at h
    by_cases hs : startsWithL "[download]".data (c :: cs2) = true
    · rw [if_pos hs] at h
      obtain ⟨t, ht⟩ := (startsWithL_iff _ _).mp hs
      have hdrop : (c :: cs2).drop (("[download]".data).length) = t := by
        rw [ht]
        exact List.drop_left _ _
      rw [hdrop] at h
      cases hm : matchPercentAfter t with
      | some v2 =>
        rw [hm] at h
        refine ⟨[], t, by simpa using ht, ?_⟩
        rw [hm, Option.some.inj h]
      | none =>
        rw [hm] at h
        obtain ⟨u, rest, hu, hmt⟩ := ih h
        exact ⟨c :: u, rest, by simp [hu, List.append_assoc], hmt⟩
    · rw [if_neg hs] at h
      obtain ⟨u, rest, hu, hmt⟩ := ih h
      exact ⟨c :: u, rest, by simp [hu, List.append_assoc], hmt⟩

/-- C9: a `progress` event is emitted only for a diagnostic chunk
containing a `[download]` token followed by a decimal-fraction
percentage (digits, a dot, digits, then `%`); the integer-percentage
line `[download] 100%` produces no progress event, while a
decimal-fraction line does. -/
theorem claim_C9_progress_regex :
    (∀ chunks : List (List Char), ∀ e ∈ progressEvents chunks,
      ∃ c ∈ chunks, decimalDownloadToken c) ∧
    progressEvents ["[download] 100%".data] = [] ∧
    progressEvents ["[download]  23.5% of ~4MiB".data] =
      [.progress "23.5".data] := by
  refine ⟨?_, by decide, by decide⟩
  intro chunks e he
  simp only [progressEvents, List.mem_filterMap] at he
  obtain ⟨c, hc, hm⟩ := he
  refine ⟨c, hc, ?_⟩
  cases hv : findDownloadPercent c with
  | none =>
    rw [hv] at hm
    exact Option.noConfusion hm
  | some v =>
    obtain ⟨u, rest, hcs, hmt⟩ := findDownloadPercent_decomp c v hv
    obtain ⟨w, a, b, r2, hrest, hw, hwall, hna, haall, hnb, hball⟩ :=
      matchPercentAfter_decomp rest v hmt
    refine ⟨u, w, a, b, r2, ?_, hw, hwall, hna, haall, hnb, hball⟩
    rw [hcs, hrest]
    simp [List.append_assoc]

/-- Witness for C9: the only-if direction applied to a concrete
matching chunk. -/
theorem claim_C9_witness :
    ∃ c ∈ (["[download] 12.5%".data] : List (List Char)), decimalDownloadToken c := by
  have h := claim_C9_progress_regex.1 ["[download] 12.5%".data]
    (.progress "12.5".data) (by decide)
  exact h

/-! ### C5: JSON cookie conversion -/

theorem all_imp_all {p q : Char → Bool} (l : List Char)
    (h : ∀ x, p x = true → q x = true) (hl : l.all p = true) : l.all q = true := by
  rw [List.all_eq_true] at hl ⊢
  exact fun x hx => h x (hl x hx)

theorem natToStrGo_digits :
    ∀ fuel n acc, acc.all Char.isDigit = true →
      (natToStrGo fuel n acc).all Char.isDigit = true := by
  intro fuel
  induction fuel with
  | zero =>
    intro n acc hacc
    cases n with
    | zero => exact hacc
    | succ m => exact hacc
  | succ f ih =>
    intro n acc hacc
    cases n with
    | zero => exact hacc
    | succ m =>
      rw [natToStrGo]
      apply ih
      rw [List.all_cons, Bool.and_eq_true]
      refine ⟨?_, hacc⟩
      have hlt : (m + 1) % 10 < 10 := Nat.mod_lt _ (by norm_num)
      set k := (m + 1) % 10 with hk
      clear hk
      interval_cases k <;> decide

theorem natToStr_digits (n : Nat) : (natToStr n).all Char.isDigit = true := by
  unfold natToStr
  split
  · decide
  · exact natToStrGo_digits n n [] rfl

theorem digit_fieldOk (ch : Char) (h : Char.isDigit ch = true) :
    fieldChOk ch = true := by
  have h1 : ch ≠ '\t' := by
    rintro rfl
    exact absurd h (by decide)
  have h2 : ch ≠ '\n' := by
    rintro rfl
    exact absurd h (by decide)
  simp [fieldChOk, h1, h2]

theorem effDomain_ok (c : JsonCookie) (h : cookieFieldsOk c = true) :
    (effDomain c).all fieldChOk = true := by
  simp only [cookieFieldsOk, Bool.and_eq_true] at h
  unfold effDomain
  split
  · exact h.1.1.1.1
  · exact h.1.1.1.2

theorem outDomain_ok (c : JsonCookie) (h : cookieFieldsOk c = true) :
    (outDomain c).all fieldChOk = true := by
  have hd := effDomain_ok c h
  unfold outDomain
  split
  · rw [List.all_cons, Bool.and_eq_true]
    exact ⟨by decide, hd⟩
  · exact hd

theorem netscapeFields_ok (c : JsonCookie) (h : cookieFieldsOk c = true) :
    ∀ f ∈ netscapeFields c, f.all fieldChOk = true := by
  have hcj := h
  simp only [cookieFieldsOk, Bool.and_eq_true] at hcj
  intro f hf
  simp only [netscapeFields, List.mem_cons, List.not_mem_nil, or_false] at hf
  rcases hf with rfl | rfl | rfl | rfl | rfl | rfl | rfl
  · rw [List.all_append, Bool.and_eq_true]
    refine ⟨?_, outDomain_ok c h⟩
    split
    · decide
    · decide
  · decide
  · split
    · decide
    · exact hcj.2
  · split
    · decide
    · decide
  · exact all_imp_all _ digit_fieldOk (natToStr_digits _)
  · exact hcj.1.1.2
  · exact hcj.1.2

theorem fieldOk_no_tab {l : List Char} (h : l.all fieldChOk = true) :
    ∀ ch ∈ l, (decide (ch = '\t')) = false := by
  intro ch hch
  rw [List.all_eq_true] at h
  have := h ch hch
  simp only [fieldChOk, Bool.and_eq_true, decide_eq_true_eq] at this
  exact decide_eq_false this.1

theorem fieldOk_no_nl {l : List Char} (h : l.all fieldChOk = true) :
    ∀ ch ∈ l, (decide (ch = '\n')) = false := by
  intro ch hch
  rw [List.all_eq_true] at h
  have := h ch hch
  simp only [fieldChOk, Bool.and_eq_true, decide_eq_true_eq] at this
  exact decide_eq_false this.2

theorem all_ne_no_sep {l : List Char} {s : Char}
    (h : l.all (fun c => c ≠ s) = true) : ∀ ch ∈ l, (decide (ch = s)) = false := by
  intro ch hch
  rw [List.all_eq_true] at h
  exact decide_eq_false (by simpa using h ch hch)

theorem netscapeLine_no_nl (c : JsonCookie) (h : cookieFieldsOk c = true) :
    ∀ ch ∈ netscapeLine c, (decide (ch = '\n')) = false := by
  intro ch hch
  rcases mem_joinSep ch hch with rfl | ⟨f, hf, hchf⟩
  · decide
  · exact fieldOk_no_nl (netscapeFields_ok c h f hf) ch hchf

theorem netscapeLine_splitTab (c : JsonCookie) (h : cookieFieldsOk c = true) :
    splitP (· = '\t') (netscapeLine c) = netscapeFields c := by
  apply splitP_joinSep (· = '\t') '\t' (by decide)
  · simp [netscapeFields]
  · intro f hf ch hch
    exact fieldOk_no_tab (netscapeFields_ok c h f hf) ch hch

theorem startsWithL_append_self (p t : List Char) :
    startsWithL p (p ++ t) = true := by
  induction p with
  | nil => rfl
  | cons a ps ih => simp [startsWithL, ih]

theorem startsWithL_append_cases (p a b : List Char)
    (h : startsWithL p (a ++ b) = true) :
    startsWithL p a = true ∨ ∃ q, p = a ++ q ∧ startsWithL q b = true := by
  induction a generalizing p with
  | nil =>
    exact Or.inr ⟨p, rfl, h⟩
  | cons x a2 ih =>
    cases p with
    | nil => exact Or.inl rfl
    | cons y p2 =>
      rw [List.cons_append] at h
      rw [startsWithL, Bool.and_eq_true, decide_eq_true_eq] at h
      obtain ⟨hyx, h2⟩ := h
      rcases ih p2 h2 with h3 | ⟨q, hq, hqb⟩
      · refine Or.inl ?_
        rw [startsWithL, Bool.and_eq_true, decide_eq_true_eq]
        exact ⟨hyx, h3⟩
      · refine Or.inr ⟨q, ?_, hqb⟩
        rw [List.cons_append, ← hq, hyx]

theorem netscapeLine_eq_head (c : JsonCookie) :
    netscapeLine c =
      ((if c.httpOnly then "#HttpOnly_".data else []) ++ outDomain c) ++
        '\t' :: joinSep '\t' (netscapeFields c).tail := by
  rw [netscapeLine, netscapeFields]
  rw [joinSep_cons_cons]
  rfl

theorem netscapeLine_httpOnly_marker (c : JsonCookie)
    (hd : startsWithL "#HttpOnly_".data (effDomain c) = false) :
    startsWithL "#HttpOnly_".data (netscapeLine c) = c.httpOnly := by
  have hpat : "#HttpOnly_".data = '#' :: "HttpOnly_".data := rfl
  cases hh : c.httpOnly with
  | true =>
    rw [netscapeLine_eq_head, hh, if_pos rfl, List.append_assoc]
    exact startsWithL_append_self _ _
  | false =>
    rw [netscapeLine_eq_head, hh, if_neg (by simp), List.nil_append]
    by_contra hab
    rw [Bool.not_eq_false] at hab
    rcases startsWithL_append_cases _ _ _ hab with hcase | ⟨q, hq, hqb⟩
    · revert hcase
      unfold outDomain
      split
      · rw [hpat]
        rw [startsWithL, Bool.and_eq_true]
        rintro ⟨habs, -⟩
        exact absurd (of_decide_eq_true habs) (by decide)
      · rw [hd]
        exact Bool.false_ne_true
    · cases q with
      | nil =>
        rw [List.append_nil] at hq
        revert hq
        unfold outDomain
        split
        · intro hq
          rw [hpat] at hq
          injection hq with h1 h2
          exact absurd h1 (by decide)
        · intro hq
          refine absurd hd ?_
          rw [← hq]
          decide
      | cons qh qt =>
        rw [startsWithL, Bool.and_eq_true, decide_eq_true_eq] at hqb
        have htab : '\t' ∈ "#HttpOnly_".data := by
          rw [hq, hqb.1]
          exact List.mem_append_right _ (List.mem_cons_self _ _)
        exact absurd htab (by decide)

theorem outDomain_dot_iff (c : JsonCookie) :
    outDomain c = '.' :: effDomain c ↔
      (c.httpOnly = false ∧ startsWithL ['.'] (effDomain c) = false ∧
       (effDomain c).contains '.' = true ∧ effDomain c ≠ []) := by
  unfold outDomain
  split
  · rename_i hcond
    simp only [Bool.and_eq_true, Bool.not_eq_true', decide_eq_true_eq] at hcond
    exact iff_of_true rfl ⟨hcond.2, hcond.1.1.2, hcond.1.2, hcond.1.1.1⟩
  · rename_i hcond
    refine iff_of_false (fun heq => List.cons_ne_self '.' (effDomain c) heq.symm) ?_
    rintro ⟨h1, h2, h3, h4⟩
    apply hcond
    rw [h1, h2, h3]
    simp [h4]

/-- C5 counterexample: for the `localhost` cookie (not http-only,
domain not already dotted) the emitted line's domain is *not*
dot-prefixed — the claimed "dot iff not http-only and not already
dotted" fails because the code additionally requires the domain to
contain a dot. -/
theorem claim_C5_counterexample :
    c5cex.httpOnly = false ∧
    startsWithL ['.'] c5cex.domain = false ∧
    netscapeLine c5cex = "localhost\tTRUE\t/\tFALSE\t0\tn\tv".data ∧
    startsWithL ['.'] (outDomain c5cex) = false := by
  decide

/-- C5 (amended): for a nonempty JSON cookie array whose string fields
contain no tab or newline and whose domains do not begin with the
`#HttpOnly_` marker, the converted file is the header line followed by
exactly one line per cookie object; each line has exactly seven
tab-separated fields; the `#HttpOnly_` prefix is present iff
`httpOnly` was true; and a `.` is prepended to the domain iff the
cookie is not http-only, the domain is not already dotted, is
nonempty, and contains a `.` (the last two conditions are the
correction to the claim). -/
theorem claim_C5_json_conversion (cs : List JsonCookie) (hne : cs ≠ [])
    (hok : ∀ c ∈ cs, cookieFieldsOk c = true)
    (hdom : ∀ c ∈ cs, startsWithL "#HttpOnly_".data (effDomain c) = false) :
    splitP (· = '\n') (convertCookiesContent cs) =
      netscapeHeader :: cs.map netscapeLine ++ [[]] ∧
    (cs.map netscapeLine).length = cs.length ∧
    ∀ c ∈ cs,
      splitP (· = '\t') (netscapeLine c) = netscapeFields c ∧
      (netscapeFields c).length = 7 ∧
      startsWithL "#HttpOnly_".data (netscapeLine c) = c.httpOnly ∧
      (outDomain c = '.' :: effDomain c ↔
        (c.httpOnly = false ∧ startsWithL ['.'] (effDomain c) = false ∧
         (effDomain c).contains '.' = true ∧ effDomain c ≠ [])) := by
  refine ⟨?_, List.length_map _ _, ?_⟩
  · have hlines : cs.map netscapeLine ≠ [] := by
      cases cs with
      | nil => exact absurd rfl hne
      | cons c cs2 => simp
    have hjoin : convertCookiesContent cs =
        joinSep '\n' (netscapeHeader :: cs.map netscapeLine) ++ ['\n'] := by
      unfold convertCookiesContent
      cases hmap : cs.map netscapeLine with
      | nil => exact absurd hmap hlines
      | cons l ls => rw [joinSep_cons_cons]
    have hfree : ∀ l ∈ netscapeHeader :: cs.map netscapeLine, ∀ ch ∈ l,
        (fun x => decide (x = '\n')) ch = false := by
      intro l hl ch hch
      rcases List.mem_cons.mp hl with rfl | hl2
      · exact all_ne_no_sep (by decide) ch hch
      · obtain ⟨c, hc, rfl⟩ := List.mem_map.mp hl2
        exact netscapeLine_no_nl c (hok c hc) ch hch
    rw [hjoin, splitP_joinSep_concat (· = '\n') '\n' (by decide) _ (by simp) hfree,
      List.cons_append]
  · intro c hc
    exact ⟨netscapeLine_splitTab c (hok c hc), rfl,
      netscapeLine_httpOnly_marker c (hdom c hc),
      outDomain_dot_iff c⟩

/-- Witness for C5 (amended) on a one-cookie array. -/
theorem claim_C5_witness :
    splitP (· = '\t')
        (netscapeLine
          { domain := "example.com".data
          , host := []
          , name := "sid".data
          , value := "abc".data
          , path := "/".data
          , secure := true
          , httpOnly := false
          , expirationDate := some 1700000000 }) =
      netscapeFields
        { domain := "example.com".data
        , host := []
        , name := "sid".data
        , value := "abc".data
        , path := "/".data
        , secure := true
        , httpOnly := false
        , expirationDate := some 1700000000 } :=
  (((claim_C5_json_conversion
      [{ domain := "example.com".data
       , host := []
       , name := "sid".data
       , value := "abc".data
       , path := "/".data
       , secure := true
       , httpOnly := false
       , expirationDate := some 1700000000 }]
      (by decide) (by decide) (by decide)).2.2 _ (by decide)).1)

/-! ### C6: flat-file passthrough round-trip -/

/-- C6 counterexample: `c6cex` is a well-formed flat-file cookie input
(one 7-field line whose value field is empty), yet the normalizer's
clean-up pass drops the trailing empty field, so the written content is
not byte-identical to the input modulo the prepended header. -/
theorem claim_C6_counterexample :
    wellFormedNetscape c6cex = true ∧
    writtenContent (getCookiesForm c6cex) ≠
      some (netscapeHeader ++ '\n' :: c6cex) ∧
    writtenContent (getCookiesForm c6cex) ≠ some c6cex := by
  decide

/-- C6 (amended): a well-formed flat-file input that the normalizer
detects as pre-normalized — its trimmed content starts with
`# Netscape` or contains a tab-`TRUE`-tab token — and that equals its
trimmed content plus a single trailing newline is written byte-identically,
modulo prepending the canonical header line when absent.  (Inputs
without these markers go through the clean-up pass, which can alter
them — see the counterexample.) -/
theorem claim_C6_round_trip (s : List Char)
    (_hwf : wellFormedNetscape s = true)
    (hts : trimL s ++ ['\n'] = s)
    (hdet : startsWithL "# Netscape".data (trimL s) = true ∨
      containsSeq "\tTRUE\t".data (trimL s) = true) :
    writtenContent (getCookiesForm s) =
      some (if startsWithL "# Netscape".data (trimL s) = true then s
            else netscapeHeader ++ '\n' :: s) := by
  have hcond : (startsWithL "# Netscape".data (trimL s) ||
      containsSeq "\tTRUE\t".data (trimL s)) = true := by
    rcases hdet with h | h <;> simp [h]
  unfold getCookiesForm
  rw [if_pos hcond]
  by_cases hstart : startsWithL "# Netscape".data (trimL s) = true
  · rw [writtenContent, if_pos hstart, if_pos hstart, hts]
  · rw [writtenContent, if_neg hstart, if_neg hstart]
    rw [List.append_assoc, List.cons_append, hts]

/-- Witness for C6 (amended): a file that already carries the canonical
header round-trips byte-identically. -/
theorem claim_C6_witness :
    writtenContent (getCookiesForm c6wit) =
      some (if startsWithL "# Netscape".data (trimL c6wit) = true then c6wit
            else netscapeHeader ++ '\n' :: c6wit) :=
  claim_C6_round_trip c6wit (by decide) (by decide) (Or.inl (by decide))

end ITX
